import Mathlib

/-!
Shallow embedding of the risk-model estimation and backtesting core of the
forecasting-ibex-sp500 repository, and verification of its specification.

Embedded functions (python source file in parentheses):
  * `backtest_var` (src/.ipynb_checkpoints/volatility-checkpoint.py) — Kupiec
    unconditional-coverage backtest;
  * `compute_var` (same file) — parametric VaR from a conditional-variance
    series;
  * `christoffersen_test` (src/.ipynb_checkpoints/risk_metrics-checkpoint.py)
    — independence backtest on an exceedance sequence;
  * `compute_es` (same file) — Student-t Expected Shortfall;
  * `estimate_arima` (src/.ipynb_checkpoints/models-checkpoint.py) — grid
    search over ARIMA orders selecting by lowest AIC;
  * `arch_lm_test` (src/tests.py) — wrapper around statsmodels `het_arch`.

Floating-point values are modelled as exact reals, except where the special
IEEE values (infinities and NaN) are the very thing the code manipulates: the
Christoffersen statistic and the ES scale factor are computed in the type
`FVal`, which distinguishes finite values, the two infinities and NaN, with
the numpy semantics `log 0 = -inf`, `0 * inf = NaN`, `x / 0 = ±inf`,
`inf - inf = NaN`.  Library functions external to the repository (scipy's
`chi2.cdf`, `t.ppf`, `t.pdf`, the distribution `ppf` passed to `compute_var`,
statsmodels' `het_arch`, and the ARIMA fitter) are abstract parameters of the
embedding: a fitted ARIMA model is represented by its order together with the
information-criterion value the selection logic reads, and a fit attempt that
raises is represented by `none`.
-/

namespace Spec2Proof

open Classical

/-- IEEE-style value: a finite double (as an exact real), `+inf`, `-inf`,
or NaN. -/
inductive FVal where
  | fin : ℝ → FVal
  | pinf : FVal
  | ninf : FVal
  | nan : FVal

/-- IEEE addition: NaN is absorbing, `inf + (-inf) = NaN`, an infinity
absorbs finite summands. -/
def FVal.add : FVal → FVal → FVal
  | .nan, _ => .nan
  | _, .nan => .nan
  | .fin a, .fin b => .fin (a + b)
  | .fin _, .pinf => .pinf
  | .fin _, .ninf => .ninf
  | .pinf, .fin _ => .pinf
  | .ninf, .fin _ => .ninf
  | .pinf, .pinf => .pinf
  | .ninf, .ninf => .ninf
  | .pinf, .ninf => .nan
  | .ninf, .pinf => .nan

/-- IEEE subtraction `a - b`: NaN absorbing, `inf - inf = NaN`. -/
def FVal.sub : FVal → FVal → FVal
  | .nan, _ => .nan
  | _, .nan => .nan
  | .fin a, .fin b => .fin (a - b)
  | .fin _, .pinf => .ninf
  | .fin _, .ninf => .pinf
  | .pinf, .fin _ => .pinf
  | .ninf, .fin _ => .ninf
  | .pinf, .pinf => .nan
  | .ninf, .ninf => .nan
  | .pinf, .ninf => .pinf
  | .ninf, .pinf => .ninf

/-- Multiplication of an IEEE value by a nonnegative integer count, as in
numpy `int64 * float64`: in particular `0 * (±inf) = NaN`. -/
def FVal.nmul (n : ℕ) : FVal → FVal
  | .nan => .nan
  | .fin r => .fin (n * r)
  | .pinf => if n = 0 then .nan else .pinf
  | .ninf => if n = 0 then .nan else .ninf

/-- Multiplication by the literal `-2.0`, as in `lr = -2 * (...)`. -/
def FVal.neg2mul : FVal → FVal
  | .nan => .nan
  | .fin r => .fin (-2 * r)
  | .pinf => .ninf
  | .ninf => .pinf

/-- Multiplication of an IEEE value by a float on the right (used for
`es_std * sigma`): `(±inf) * 0 = NaN`, otherwise signs multiply. -/
noncomputable def FVal.rmul (v : FVal) (s : ℝ) : FVal :=
  match v with
  | .nan => .nan
  | .fin r => .fin (r * s)
  | .pinf => if 0 < s then .pinf else if s < 0 then .ninf else .nan
  | .ninf => if 0 < s then .ninf else if s < 0 then .pinf else .nan

/-- numpy `np.log` on a float64: positive argument gives the real logarithm,
`log 0.0 = -inf`, and a negative argument gives NaN. -/
noncomputable def flog (x : ℝ) : FVal :=
  if 0 < x then .fin (Real.log x) else if x = 0 then .ninf else .nan

/-- numpy float64 division `a / b`: division by zero gives a signed infinity
(`0/0` gives NaN), otherwise the real quotient. -/
noncomputable def fdiv (a b : ℝ) : FVal :=
  if b = 0 then (if 0 < a then .pinf else if a < 0 then .ninf else .nan)
  else .fin (a / b)

/-- scipy `chi2.cdf(x, df)` lifted to IEEE values: a CDF is `0` at `-inf`,
`1` at `+inf`, and NaN at NaN.  `chi2cdf` is the (abstract) real CDF. -/
def chi2cdfF (chi2cdf : ℝ → ℝ → ℝ) (df : ℝ) : FVal → FVal
  | .fin r => .fin (chi2cdf r df)
  | .pinf => .fin 1
  | .ninf => .fin 0
  | .nan => .nan

/-! ### Christoffersen (1998) independence test
`risk_metrics-checkpoint.py`, `christoffersen_test(exceedances)`. -/

/-- The consecutive pairs `(x_t, x_{t+1})` of a sequence, as built from
`x[:-1]` and `x[1:]` in the source. -/
def transPairs : List Bool → List (Bool × Bool)
  | a :: b :: rest => (a, b) :: transPairs (b :: rest)
  | _ => []

/-- `n00 = np.sum((x_t == 0) & (x_tp1 == 0))`. -/
def n00of (xs : List Bool) : ℕ := (transPairs xs).countP fun p => !p.1 && !p.2

/-- `n01 = np.sum((x_t == 0) & (x_tp1 == 1))`. -/
def n01of (xs : List Bool) : ℕ := (transPairs xs).countP fun p => !p.1 && p.2

/-- `n10 = np.sum((x_t == 1) & (x_tp1 == 0))`. -/
def n10of (xs : List Bool) : ℕ := (transPairs xs).countP fun p => p.1 && !p.2

/-- `n11 = np.sum((x_t == 1) & (x_tp1 == 1))`. -/
def n11of (xs : List Bool) : ℕ := (transPairs xs).countP fun p => p.1 && p.2

/-- Result dictionary of `christoffersen_test`.  The short-input branch puts
NaN in the count fields, modelled by `none`. -/
structure ChristoffersenResult where
  n00 : Option ℕ
  n01 : Option ℕ
  n10 : Option ℕ
  n11 : Option ℕ
  lr_ind : FVal
  p_value : FVal

/-- `pi_01 = n01 / (n00 + n01)` (numpy integer-to-float division). -/
noncomputable def christPi01 (xs : List Bool) : ℝ :=
  (n01of xs : ℝ) / ((n00of xs : ℝ) + (n01of xs : ℝ))

/-- `pi_11 = n11 / (n10 + n11)`. -/
noncomputable def christPi11 (xs : List Bool) : ℝ :=
  (n11of xs : ℝ) / ((n10of xs : ℝ) + (n11of xs : ℝ))

/-- `pi = (n01 + n11) / (n00 + n01 + n10 + n11)`. -/
noncomputable def christPi (xs : List Bool) : ℝ :=
  ((n01of xs : ℝ) + (n11of xs : ℝ)) /
    ((n00of xs : ℝ) + (n01of xs : ℝ) + (n10of xs : ℝ) + (n11of xs : ℝ))

/-- `logL0 = (n00 + n01) * np.log(1 - pi) + (n10 + n11) * np.log(pi)`, in
IEEE arithmetic. -/
noncomputable def christLogL0F (xs : List Bool) : FVal :=
  (FVal.nmul (n00of xs + n01of xs) (flog (1 - christPi xs))).add
    (FVal.nmul (n10of xs + n11of xs) (flog (christPi xs)))

/-- `logL1 = n00 * np.log(1 - pi_01) + n01 * np.log(pi_01)
           + n10 * np.log(1 - pi_11) + n11 * np.log(pi_11)`, in IEEE
arithmetic (left-associated sums, as in the source). -/
noncomputable def christLogL1F (xs : List Bool) : FVal :=
  (((FVal.nmul (n00of xs) (flog (1 - christPi01 xs))).add
    (FVal.nmul (n01of xs) (flog (christPi01 xs)))).add
    (FVal.nmul (n10of xs) (flog (1 - christPi11 xs)))).add
    (FVal.nmul (n11of xs) (flog (christPi11 xs)))

/-- `lr_ind = -2 * (logL0 - logL1)`, in IEEE arithmetic. -/
noncomputable def christLRF (xs : List Bool) : FVal :=
  FVal.neg2mul ((christLogL0F xs).sub (christLogL1F xs))

/-- `christoffersen_test(exceedances)` from `risk_metrics-checkpoint.py`.
`chi2cdf` abstracts scipy's `chi2.cdf`.  The input is the binary exceedance
sequence (`pd.Series(exceedances).astype(int)`); the arithmetic of the
likelihood branch is performed in `FVal`, mirroring numpy float64. -/
noncomputable def christoffersen_test (chi2cdf : ℝ → ℝ → ℝ)
    (exceedances : List Bool) : ChristoffersenResult :=
  if exceedances.length < 2 then
    ⟨none, none, none, none, .nan, .nan⟩
  else
    let n00 := n00of exceedances
    let n01 := n01of exceedances
    let n10 := n10of exceedances
    let n11 := n11of exceedances
    if n01 + n00 = 0 ∨ n10 + n11 = 0 ∨ n01 + n11 = 0 then
      ⟨some n00, some n01, some n10, some n11, .nan, .nan⟩
    else
      ⟨some n00, some n01, some n10, some n11, christLRF exceedances,
        (FVal.fin 1).sub (chi2cdfF chi2cdf 1 (christLRF exceedances))⟩

/-- The real value of the Christoffersen statistic when every log argument
is positive: `-2 * (logL0 - logL1)` with the transition probabilities of
the spec. -/
noncomputable def christLRval (xs : List Bool) : ℝ :=
  -2 * ((((n00of xs : ℝ) + (n01of xs : ℝ)) * Real.log (1 - christPi xs)
      + ((n10of xs : ℝ) + (n11of xs : ℝ)) * Real.log (christPi xs))
    - ((n00of xs : ℝ) * Real.log (1 - christPi01 xs)
      + (n01of xs : ℝ) * Real.log (christPi01 xs)
      + (n10of xs : ℝ) * Real.log (1 - christPi11 xs)
      + (n11of xs : ℝ) * Real.log (christPi11 xs)))

/-! ### Kupiec unconditional-coverage backtest
`volatility-checkpoint.py`, `backtest_var(returns, var_series, alpha)`. -/

/-- Round-half-to-even of a real to an integer (the rounding used by
Python's builtin `round`). -/
noncomputable def roundHalfEven (y : ℝ) : ℤ :=
  if Int.fract y < 1 / 2 then ⌊y⌋
  else if 1 / 2 < Int.fract y then ⌊y⌋ + 1
  else if ⌊y⌋ % 2 = 0 then ⌊y⌋ else ⌊y⌋ + 1

/-- Python `round(x, 2)`: round to two decimal places, ties to even. -/
noncomputable def pyRound2 (x : ℝ) : ℝ := (roundHalfEven (x * 100) : ℤ) / 100

/-- `exceptions = (returns < var_series).astype(int)`: the pointwise
exceedance indicators of two aligned series. -/
noncomputable def exceedancesOf (returns var_series : List ℝ) : List Bool :=
  List.zipWith (fun r v => if r < v then true else false) returns var_series

/-- Result dictionary of `backtest_var`.  The degenerate branch stores NaN
in `kupiec_lr` and `p_value`, modelled by `none`; inside the non-degenerate
branch all float arithmetic is on well-defined finite quantities, modelled
as exact reals. -/
structure KupiecResult where
  alpha : ℝ
  n : ℕ
  violations : ℕ
  violation_ratio : ℝ
  kupiec_lr : Option ℝ
  p_value : Option ℝ

/-- The Kupiec statistic exactly as the source computes it in the
non-degenerate branch: with `n = len(exceptions)`, `x = exceptions.sum()`,
`pi_hat = x / n`,
`lr_uc = -2 * (log((1-alpha)**(n-x) * alpha**x)
              - log((1-pi_hat)**(n-x) * pi_hat**x))`. -/
noncomputable def kupiecLRcode (exceptions : List Bool) (alpha : ℝ) : ℝ :=
  let n := exceptions.length
  let x := exceptions.count true
  let pi_hat : ℝ := (x : ℝ) / (n : ℝ);
  -2 * (Real.log ((1 - alpha) ^ (n - x) * alpha ^ x)
    - Real.log ((1 - pi_hat) ^ (n - x) * pi_hat ^ x))

/-- Body of `backtest_var` after the exceedance indicators have been formed:
`n = len(exceptions)`, `x = exceptions.sum()`, `pi_hat = x / n`, the
`x in [0, n]` degenerate branch, and the result dictionary.  `chi2cdf`
abstracts scipy's `chi2.cdf`.  (For `n = 0` numpy's `0/0` gives NaN with a
warning rather than raising; every claim below assumes `n > 0`, where the
real-division model agrees with the floats.) -/
noncomputable def backtest_core (chi2cdf : ℝ → ℝ → ℝ) (exceptions : List Bool)
    (alpha : ℝ) : KupiecResult :=
  let n := exceptions.length
  let x := exceptions.count true
  let pi_hat : ℝ := (x : ℝ) / (n : ℝ)
  if x = 0 ∨ x = n then
    { alpha := alpha, n := n, violations := x,
      violation_ratio := pyRound2 (pi_hat / alpha),
      kupiec_lr := none, p_value := none }
  else
    { alpha := alpha, n := n, violations := x,
      violation_ratio := pyRound2 (pi_hat / alpha),
      kupiec_lr := some (kupiecLRcode exceptions alpha),
      p_value := some (1 - chi2cdf (kupiecLRcode exceptions alpha) 1) }

/-- `backtest_var(returns, var_series, alpha)` from
`volatility-checkpoint.py`. -/
noncomputable def backtest_var (chi2cdf : ℝ → ℝ → ℝ)
    (returns var_series : List ℝ) (alpha : ℝ) : KupiecResult :=
  backtest_core chi2cdf (exceedancesOf returns var_series) alpha

/-! ### Parametric VaR
`volatility-checkpoint.py`, `compute_var(variance, dist, alpha)`. -/

/-- `compute_var(variance, dist, alpha)`: `sigma = np.sqrt(variance)`,
`q = dist.ppf(alpha)`, returns `q * sigma`.  The distribution object is
represented by its quantile function `ppf`, the only attribute read. -/
noncomputable def compute_var (variance : List ℝ) (ppf : ℝ → ℝ)
    (alpha : ℝ) : List ℝ :=
  variance.map fun v => ppf alpha * Real.sqrt v

/-! ### Expected Shortfall
`risk_metrics-checkpoint.py`, `compute_es(sigma, dof, alpha)`. -/

/-- `compute_es(sigma, dof, alpha)`: `q = t.ppf(alpha, dof)`,
`f_q = t.pdf(q, dof)`, `es_std = -f_q * (dof + q**2) / ((dof - 1) * alpha)`,
returns `es_std * sigma`.  scipy's `t.ppf` and `t.pdf` are the abstract
parameters `ppf` and `pdf` (argument order `(x, dof)`); the division is
performed in `FVal` because the denominator vanishes at `dof = 1`. -/
noncomputable def compute_es (ppf pdf : ℝ → ℝ → ℝ) (sigma : List ℝ)
    (dof alpha : ℝ) : List FVal :=
  let q := ppf alpha dof
  let f_q := pdf q dof
  let es_std := fdiv (-f_q * (dof + q ^ 2)) ((dof - 1) * alpha)
  sigma.map fun s => es_std.rmul s

/-! ### ARIMA order selection
`models-checkpoint.py`, `estimate_arima(series, max_p, max_q, d, ...)`. -/

/-- A fitted candidate as the selection logic sees it: the `(p, q)` order
and the information-criterion value `model.aic`.  The criterion values live
in an arbitrary linear order, matching the bare `<` comparison in the
source. -/
structure ArimaCand (α : Type) where
  p : ℕ
  q : ℕ
  aic : α
deriving DecidableEq

/-- Iteration order of the two nested `for` loops:
`p in range(max_p + 1)`, inner `q in range(max_q + 1)`. -/
def arimaGrid (mp mq : ℕ) : List (ℕ × ℕ) :=
  (List.range (mp + 1)).flatMap fun p =>
    (List.range (mq + 1)).map fun q => (p, q)

/-- One iteration of the search loop: a failed fit (`except Exception:
continue`) leaves the best candidate unchanged; a successful fit replaces it
exactly when its criterion value is strictly smaller (`model.aic <
best_aic`, with `best_aic` initially `np.inf`, modelled by `none`). -/
def arimaStep {α : Type} [LinearOrder α] (fit : ℕ → ℕ → Option α)
    (best : Option (ArimaCand α)) (pq : ℕ × ℕ) : Option (ArimaCand α) :=
  match fit pq.1 pq.2 with
  | none => best
  | some a =>
    match best with
    | none => some ⟨pq.1, pq.2, a⟩
    | some b => if a < b.aic then some ⟨pq.1, pq.2, a⟩ else best

/-- `estimate_arima` from `models-checkpoint.py`: fold of the loop body over
the grid, starting from no candidate; returns `best_model` (with its order
and criterion value), or `none` when nothing converged. -/
def estimate_arima {α : Type} [LinearOrder α] (fit : ℕ → ℕ → Option α)
    (mp mq : ℕ) : Option (ArimaCand α) :=
  (arimaGrid mp mq).foldl (arimaStep fit) none

/-- The convergent fits in iteration order: the orders of the grid whose fit
succeeds, as candidates. -/
def arimaSuccesses {α : Type} (fit : ℕ → ℕ → Option α) (mp mq : ℕ) :
    List (ArimaCand α) :=
  (arimaGrid mp mq).filterMap fun pq =>
    (fit pq.1 pq.2).map fun a => ⟨pq.1, pq.2, a⟩

/-! ### ARCH-LM diagnostic
`tests.py`, `arch_lm_test(series, name, lags)`. -/

/-- `arch_lm_test(series, lags)` from `tests.py`: unpacks
`lm_stat, lm_pval, f_stat, f_pval = het_arch(series, nlags=lags)` and
returns `lm_stat, lm_pval`.  statsmodels' `het_arch` is the abstract
parameter `het_arch`; the `name` argument only labels console output and is
omitted. -/
def arch_lm_test (het_arch : List ℝ → ℕ → ℝ × ℝ × ℝ × ℝ)
    (series : List ℝ) (lags : ℕ) : ℝ × ℝ :=
  ((het_arch series lags).1, (het_arch series lags).2.1)

/-- The comparison the selection loop performs once a fit has succeeded:
keep the incumbent unless the new candidate's criterion value is strictly
smaller.  `arimaStep` is this fold restricted to the convergent fits. -/
def pickBetter {α : Type} [LinearOrder α] (best : Option (ArimaCand α))
    (c : ArimaCand α) : Option (ArimaCand α) :=
  match best with
  | none => some c
  | some b => if c.aic < b.aic then some c else some b

/-- A concrete fit oracle for witnesses: order `(0,0)` converges with
criterion value `5`, order `(0,1)` with value `3`, everything else fails. -/
def arimaFitExample : ℕ → ℕ → Option ℕ := fun p q =>
  if p = 0 ∧ q = 1 then some 3 else if p = 0 ∧ q = 0 then some 5 else none

/-- The spec's example exceedance sequence `[0,0,0,1,0,0,1,0,0,0]`
(`n = 10`, `x = 2`). -/
def exampleExc : List Bool :=
  [false, false, false, true, false, false, true, false, false, false]

/-- The Kupiec statistic of the example sequence at `alpha = 1/20`
(`n = 10`, `x = 2`, `pi_hat = 2/10`), in the source's product-of-powers
form. -/
noncomputable def kupiecExampleLR : ℝ :=
  -2 * (Real.log ((1 - 1 / 20) ^ 8 * (1 / 20) ^ 2)
    - Real.log ((1 - 2 / 10) ^ 8 * (2 / 10) ^ 2))

/-! ## Claims -/

/-- C1: for every exceedance sequence of positive length whose violation
count `x` is `0` or `n`, `backtest_var` reports NaN (here `none`) for both
the likelihood-ratio statistic and the p-value.  The embedding is a total
function, matching the source, whose degenerate branch assigns `np.nan` and
returns normally — no exception is raised. -/
theorem kupiec_degenerate_nan (chi2cdf : ℝ → ℝ → ℝ)
    (returns var_series : List ℝ) (alpha : ℝ)
    (hn : 0 < (exceedancesOf returns var_series).length)
    (hx : (exceedancesOf returns var_series).count true = 0 ∨
      (exceedancesOf returns var_series).count true =
        (exceedancesOf returns var_series).length) :
    (backtest_var chi2cdf returns var_series alpha).kupiec_lr = none ∧
    (backtest_var chi2cdf returns var_series alpha).p_value = none := by
  unfold backtest_var backtest_core
  simp [if_pos hx]

/-- Witness for C1: a one-element series whose return breaches its VaR, so
`x = n = 1`. -/
theorem kupiec_degenerate_nan_witness :
    0 < (exceedancesOf [-1] [0]).length ∧
    ((exceedancesOf [-1] [0]).count true = 0 ∨
      (exceedancesOf [-1] [0]).count true =
        (exceedancesOf [-1] [0]).length) ∧
    ((backtest_var (fun _ _ => 0) [-1] [0] (1 / 20)).kupiec_lr = none ∧
      (backtest_var (fun _ _ => 0) [-1] [0] (1 / 20)).p_value = none) := by
  have hexc : exceedancesOf [-1] [0] = [true] := by
    norm_num [exceedancesOf]
  have hn : 0 < (exceedancesOf [-1] [0]).length := by rw [hexc]; simp
  have hx : (exceedancesOf [-1] [0]).count true = 0 ∨
      (exceedancesOf [-1] [0]).count true =
        (exceedancesOf [-1] [0]).length := by
    rw [hexc]; exact Or.inr rfl
  exact ⟨hn, hx, kupiec_degenerate_nan (fun _ _ => 0) [-1] [0] (1 / 20) hn hx⟩

/-- C3: in the non-degenerate case `0 < x < n` the Kupiec statistic computed
by the source as a log of products of powers equals the spec's sum of logs,
`-2*((n-x)*log(1-alpha) + x*log(alpha) - (n-x)*log(1-x/n) - x*log(x/n))`,
and the p-value is `1 - chi2.cdf(LR_uc, 1)`.  Stated over `backtest_core`,
the body of `backtest_var` applied to the exceedance sequence. -/
theorem kupiec_lr_formula (chi2cdf : ℝ → ℝ → ℝ) (exc : List Bool) (alpha : ℝ)
    (h0 : 0 < alpha) (h1 : alpha < 1) (hx0 : 0 < exc.count true)
    (hxn : exc.count true < exc.length) :
    (backtest_core chi2cdf exc alpha).kupiec_lr =
      some (-2 * (((exc.length : ℝ) - (exc.count true : ℝ))
          * Real.log (1 - alpha)
        + (exc.count true : ℝ) * Real.log alpha
        - ((exc.length : ℝ) - (exc.count true : ℝ))
          * Real.log (1 - (exc.count true : ℝ) / (exc.length : ℝ))
        - (exc.count true : ℝ)
          * Real.log ((exc.count true : ℝ) / (exc.length : ℝ)))) ∧
    (backtest_core chi2cdf exc alpha).p_value =
      some (1 - chi2cdf (-2 * (((exc.length : ℝ) - (exc.count true : ℝ))
          * Real.log (1 - alpha)
        + (exc.count true : ℝ) * Real.log alpha
        - ((exc.length : ℝ) - (exc.count true : ℝ))
          * Real.log (1 - (exc.count true : ℝ) / (exc.length : ℝ))
        - (exc.count true : ℝ)
          * Real.log ((exc.count true : ℝ) / (exc.length : ℝ)))) 1) := by
  have hne : ¬(exc.count true = 0 ∨ exc.count true = exc.length) := by
    push_neg
    exact ⟨hx0.ne', hxn.ne⟩
  have hnpos : (0 : ℝ) < (exc.length : ℝ) := by
    exact_mod_cast lt_of_le_of_lt (Nat.zero_le _) hxn
  have hpi0 : (0 : ℝ) < (exc.count true : ℝ) / (exc.length : ℝ) := by
    apply div_pos _ hnpos
    exact_mod_cast hx0
  have hpi1 : (exc.count true : ℝ) / (exc.length : ℝ) < 1 := by
    rw [div_lt_one hnpos]
    exact_mod_cast hxn
  have ha1 : (0 : ℝ) < 1 - alpha := by linarith
  have hp1 : (0 : ℝ) < 1 - (exc.count true : ℝ) / (exc.length : ℝ) := by
    linarith
  have hform : kupiecLRcode exc alpha =
      -2 * (((exc.length : ℝ) - (exc.count true : ℝ)) * Real.log (1 - alpha)
        + (exc.count true : ℝ) * Real.log alpha
        - ((exc.length : ℝ) - (exc.count true : ℝ))
          * Real.log (1 - (exc.count true : ℝ) / (exc.length : ℝ))
        - (exc.count true : ℝ)
          * Real.log ((exc.count true : ℝ) / (exc.length : ℝ))) := by
    simp only [kupiecLRcode]
    rw [Real.log_mul (pow_ne_zero _ ha1.ne') (pow_ne_zero _ h0.ne'),
      Real.log_mul (pow_ne_zero _ hp1.ne') (pow_ne_zero _ hpi0.ne'),
      Real.log_pow, Real.log_pow, Real.log_pow, Real.log_pow,
      Nat.cast_sub hxn.le]
    ring
  unfold backtest_core
  simp only [if_neg hne]
  exact ⟨congrArg some hform, congrArg some (by rw [hform])⟩

/-- Witness for C3: two observations, one violation, `alpha = 1/2`. -/
theorem kupiec_lr_formula_witness :
    (0 : ℝ) < 1 / 2 ∧ (1 : ℝ) / 2 < 1 ∧
    0 < ([true, false] : List Bool).count true ∧
    ([true, false] : List Bool).count true < ([true, false] : List Bool).length ∧
    (backtest_core (fun _ _ => 0) [true, false] (1 / 2)).kupiec_lr =
      some (-2 * (((([true, false] : List Bool).length : ℝ)
          - (([true, false] : List Bool).count true : ℝ))
          * Real.log (1 - 1 / 2)
        + (([true, false] : List Bool).count true : ℝ) * Real.log (1 / 2)
        - ((([true, false] : List Bool).length : ℝ)
          - (([true, false] : List Bool).count true : ℝ))
          * Real.log (1 - (([true, false] : List Bool).count true : ℝ)
            / (([true, false] : List Bool).length : ℝ))
        - (([true, false] : List Bool).count true : ℝ)
          * Real.log ((([true, false] : List Bool).count true : ℝ)
            / (([true, false] : List Bool).length : ℝ)))) := by
  refine ⟨by norm_num, by norm_num, by decide, by decide, ?_⟩
  exact (kupiec_lr_formula (fun _ _ => 0) [true, false] (1 / 2)
    (by norm_num) (by norm_num) (by decide) (by decide)).1

/-- Shared evaluation: `⌊2000/3⌋ = 666`. -/
theorem floor_2000_div_3 : ⌊(2000 : ℝ) / 3⌋ = 666 := by
  rw [Int.floor_eq_iff]
  constructor <;> norm_num

/-- Shared evaluation: Python `round((1/3)/0.05, 2) = round(6.66.., 2) =
6.67`. -/
theorem pyRound2_20_div_3 : pyRound2 ((20 : ℝ) / 3) = 667 / 100 := by
  have hfract : Int.fract ((2000 : ℝ) / 3) = 2 / 3 := by
    rw [Int.fract, floor_2000_div_3]
    norm_num
  unfold pyRound2 roundHalfEven
  rw [show ((20 : ℝ) / 3) * 100 = 2000 / 3 by norm_num, hfract,
    floor_2000_div_3]
  norm_num

/-- Counterexample to C8 as stated: for the exceedance sequence
`[1, 0, 0]` with `alpha = 0.05` we have `x = 1`, `n = 3`, so
`(x/n)/alpha = 20/3 = 6.66..`, but the source stores
`round(pi_hat / alpha, 2) = 6.67`, which differs: `violation_ratio` is the
two-decimal rounding of `(x/n)/alpha`, not that quotient exactly. -/
theorem kupiec_ratio_rounds_cex :
    (backtest_core (fun _ _ => 0) [true, false, false] (1 / 20)).violation_ratio
      ≠ ((1 : ℝ) / 3) / (1 / 20) := by
  have hratio : (backtest_core (fun _ _ => 0) [true, false, false]
      (1 / 20)).violation_ratio = pyRound2 (((1 : ℝ) / 3) / (1 / 20)) := by
    unfold backtest_core
    norm_num
  rw [hratio, show ((1 : ℝ) / 3) / (1 / 20) = 20 / 3 by norm_num,
    pyRound2_20_div_3]
  norm_num

/-- C8 (amended): `violation_ratio` is `(x/n)/alpha` rounded to two decimal
places (Python `round(pi_hat / alpha, 2)`), not the exact quotient; on the
spec's example `[0,0,0,1,0,0,1,0,0,0]` with `alpha = 0.05` it equals `4.0`
exactly, and the p-value is non-NaN and below `0.5` provided scipy's
`chi2.cdf` exceeds `1/2` at the example's statistic (true of the actual
chi-square CDF, whose median `≈ 0.455` is far below the statistic
`≈ 2.796`). -/
theorem kupiec_violation_ratio (chi2cdf : ℝ → ℝ → ℝ) (exc : List Bool)
    (alpha : ℝ) (hn : 0 < exc.length)
    (hmed : 1 / 2 < chi2cdf kupiecExampleLR 1) :
    (backtest_core chi2cdf exc alpha).violation_ratio =
      pyRound2 (((exc.count true : ℝ) / (exc.length : ℝ)) / alpha) ∧
    (backtest_core chi2cdf exampleExc (1 / 20)).violation_ratio = 4 ∧
    ∃ p, (backtest_core chi2cdf exampleExc (1 / 20)).p_value = some p ∧
      p < 1 / 2 := by
  have hfl : ⌊(400 : ℝ)⌋ = 400 := by
    rw [show (400 : ℝ) = ((400 : ℤ) : ℝ) by norm_num, Int.floor_intCast]
  have hfr : Int.fract (400 : ℝ) = 0 := by
    rw [Int.fract, hfl]
    norm_num
  have h4 : pyRound2 (4 : ℝ) = 4 := by
    unfold pyRound2 roundHalfEven
    rw [show (4 : ℝ) * 100 = 400 by norm_num, hfr, hfl]
    norm_num
  have hne : ¬(exampleExc.count true = 0 ∨
      exampleExc.count true = exampleExc.length) := by decide
  have hlr : kupiecLRcode exampleExc (1 / 20) = kupiecExampleLR := by
    unfold kupiecLRcode kupiecExampleLR
    norm_num [exampleExc]
  refine ⟨?_, ?_, ?_⟩
  · unfold backtest_core
    by_cases h : exc.count true = 0 ∨ exc.count true = exc.length
    · simp [if_pos h]
    · simp [if_neg h]
  · unfold backtest_core
    norm_num [exampleExc, h4]
  · refine ⟨1 - chi2cdf kupiecExampleLR 1, ?_, by linarith⟩
    unfold backtest_core
    simp only [if_neg hne]
    exact congrArg some (by rw [hlr])

/-- Witness for the amended C8, with a constant CDF oracle `3/4` satisfying
the median hypothesis. -/
theorem kupiec_violation_ratio_witness :
    0 < ([true] : List Bool).length ∧
    ((1 : ℝ) / 2 < (3 : ℝ) / 4) ∧
    ((backtest_core (fun _ _ => 3 / 4) [true] 1).violation_ratio =
      pyRound2 (((([true] : List Bool).count true : ℝ) /
        (([true] : List Bool).length : ℝ)) / 1) ∧
    (backtest_core (fun _ _ => 3 / 4) exampleExc (1 / 20)).violation_ratio = 4 ∧
    ∃ p, (backtest_core (fun _ _ => 3 / 4) exampleExc (1 / 20)).p_value =
      some p ∧ p < 1 / 2) := by
  refine ⟨by decide, by norm_num, ?_⟩
  exact kupiec_violation_ratio (fun _ _ => 3 / 4) [true] 1 (by decide)
    (by norm_num)

/-- Counterexample to C7 as stated: `compute_var` does not return
`quantile(alpha) * sigma_t` for its input series.  With input value `4` and
a quantile function returning `-2`, the code yields `-2 * sqrt(4) = -4`,
not `-2 * 4 = -8`: the input is treated as a variance, not a volatility. -/
theorem compute_var_linear_cex :
    compute_var [4] (fun _ => -2) (1 / 20) ≠ [(-2 : ℝ) * 4] := by
  have h4 : Real.sqrt 4 = 2 := by
    rw [show (4 : ℝ) = 2 ^ 2 by norm_num,
      Real.sqrt_sq (by norm_num : (0 : ℝ) ≤ 2)]
  simp only [compute_var, List.map_cons, List.map_nil, h4]
  intro h
  have := List.head_eq_of_cons_eq h
  norm_num at this

/-- C7 (amended): `compute_var` returns `quantile(alpha) * sqrt(v)`
pointwise in its input series `v` (the conditional-variance series), and
for a monotone quantile function the VaR value at each point of the series
is monotonically more negative as `alpha` decreases. -/
theorem compute_var_sqrt_monotone (variance : List ℝ) (ppf : ℝ → ℝ)
    (a1 a2 : ℝ) (hm : Monotone ppf) (h12 : a1 ≤ a2) :
    compute_var variance ppf a1 =
      variance.map (fun v => ppf a1 * Real.sqrt v) ∧
    ∀ v ∈ variance, ppf a1 * Real.sqrt v ≤ ppf a2 * Real.sqrt v := by
  refine ⟨rfl, fun v _ => ?_⟩
  exact mul_le_mul_of_nonneg_right (hm h12) (Real.sqrt_nonneg v)

/-- Witness for the amended C7 with the identity quantile function. -/
theorem compute_var_sqrt_monotone_witness :
    Monotone (id : ℝ → ℝ) ∧ (0 : ℝ) ≤ 1 ∧
    (compute_var [1] id 0 =
      ([1] : List ℝ).map (fun v => id (0 : ℝ) * Real.sqrt v) ∧
    ∀ v ∈ ([1] : List ℝ), id (0 : ℝ) * Real.sqrt v ≤
      id (1 : ℝ) * Real.sqrt v) :=
  ⟨monotone_id, by norm_num,
    compute_var_sqrt_monotone [1] id 0 1 monotone_id (by norm_num)⟩

/-- C10: `compute_var` interprets its first argument as a
conditional-variance series: it returns `quantile(alpha) * sqrt(v)`
elementwise, and for an input `s ∉ {0, 1}` with a nonzero quantile this
differs from `quantile(alpha) * s` — a caller passing a volatility series
gets the square root taken again. -/
theorem compute_var_takes_variance (variance : List ℝ) (ppf : ℝ → ℝ)
    (alpha : ℝ) :
    compute_var variance ppf alpha =
      variance.map (fun v => ppf alpha * Real.sqrt v) ∧
    ∀ s : ℝ, 0 < s → s ≠ 1 → ppf alpha ≠ 0 →
      compute_var [s] ppf alpha ≠ [ppf alpha * s] := by
  refine ⟨rfl, fun s hs hs1 hq h => ?_⟩
  simp only [compute_var, List.map_cons, List.map_nil] at h
  have hss : Real.sqrt s = s :=
    mul_left_cancel₀ hq (List.head_eq_of_cons_eq h)
  have hsq : Real.sqrt s ^ 2 = s := Real.sq_sqrt hs.le
  rw [hss, sq] at hsq
  exact hs1 (mul_left_cancel₀ (ne_of_gt hs) (hsq.trans (mul_one s).symm))

/-- Witness for C10 at variance `4` and constant quantile `-2`. -/
theorem compute_var_takes_variance_witness :
    (compute_var [4] (fun _ => -2) (1 / 20) =
      ([4] : List ℝ).map (fun v => (-2 : ℝ) * Real.sqrt v)) ∧
    ((0 : ℝ) < 4 ∧ (4 : ℝ) ≠ 1 ∧ (-2 : ℝ) ≠ 0 ∧
      compute_var [4] (fun _ => -2) (1 / 20) ≠ [(-2 : ℝ) * 4]) := by
  refine ⟨(compute_var_takes_variance [4] (fun _ => -2) (1 / 20)).1,
    by norm_num, by norm_num, by norm_num, ?_⟩
  exact (compute_var_takes_variance [4] (fun _ => -2) (1 / 20)).2 4
    (by norm_num) (by norm_num) (by norm_num)

/-- Counterexample to C4 as stated: `compute_es` performs no parameter
validation and raises nothing.  At `dof = 1` (with scipy's `t.ppf` and
`t.pdf` returning `-2` and `1`) the scale denominator `(dof - 1) * alpha`
is zero, numpy divides `-5` by `0.0` giving `-inf`, and the function
returns an ES series — here `[-inf]` — instead of failing. -/
theorem compute_es_no_dof_check_cex :
    compute_es (fun _ _ => -2) (fun _ _ => 1) [1] 1 (1 / 100) =
      [FVal.ninf] := by
  norm_num [compute_es, fdiv, FVal.rmul]

/-- C4 (amended): `compute_es` is total — it never raises, for any `dof`
(including `dof ≤ 1`): it returns one ES value per input point, and at
`dof = 1` with a nonzero tail density the values are infinities or NaN
(numpy division by zero), not an exception. -/
theorem compute_es_total_low_dof (ppf pdf : ℝ → ℝ → ℝ) (sigma : List ℝ)
    (dof alpha : ℝ) (hd : dof ≤ 1) :
    (compute_es ppf pdf sigma dof alpha).length = sigma.length ∧
    (dof = 1 → 0 < pdf (ppf alpha dof) dof * (dof + (ppf alpha dof) ^ 2) →
      ∀ v ∈ compute_es ppf pdf sigma dof alpha,
        v = FVal.ninf ∨ v = FVal.pinf ∨ v = FVal.nan) := by
  constructor
  · simp [compute_es]
  · intro h1 hpos v hv
    subst h1
    simp only [compute_es, List.mem_map] at hv
    obtain ⟨s, _, rfl⟩ := hv
    have hnum : -(pdf (ppf alpha 1) 1) * (1 + ppf alpha 1 ^ 2) < 0 := by
      nlinarith [hpos]
    have hes : fdiv (-(pdf (ppf alpha 1) 1) * (1 + ppf alpha 1 ^ 2))
        (((1 : ℝ) - 1) * alpha) = FVal.ninf := by
      unfold fdiv
      rw [if_pos (by ring), if_neg (by linarith), if_pos hnum]
    rw [hes]
    rcases lt_trichotomy (0 : ℝ) s with h | h | h
    · exact Or.inl (by simp [FVal.rmul, if_pos h])
    · exact Or.inr (Or.inr (by simp [FVal.rmul, ← h]))
    · exact Or.inr (Or.inl (by simp [FVal.rmul, if_neg (asymm h), if_pos h]))

/-- Witness for the amended C4 at `dof = 1`. -/
theorem compute_es_total_low_dof_witness :
    (1 : ℝ) ≤ 1 ∧
    (compute_es (fun _ _ => -2) (fun _ _ => 1) [1] 1 (1 / 100)).length =
      ([1] : List ℝ).length :=
  ⟨le_refl 1, (compute_es_total_low_dof (fun _ _ => -2) (fun _ _ => 1)
    [1] 1 (1 / 100) (le_refl 1)).1⟩

/-- Counterexample to C9 as stated: `arch_lm_test` returns only the
LM-statistic/p-value pair.  Two `het_arch` oracles that agree on the LM
pair but differ in the F pair produce identical results, so the F pair is
not part of the result. -/
theorem arch_lm_returns_only_lm_cex :
    arch_lm_test (fun _ _ => (1, 2, 3, 4)) [0] 12 = ((1 : ℝ), (2 : ℝ)) ∧
    arch_lm_test (fun _ _ => (1, 2, 5, 6)) [0] 12 =
      arch_lm_test (fun _ _ => (1, 2, 3, 4)) [0] 12 ∧
    ((3 : ℝ), (4 : ℝ)) ≠ ((5 : ℝ), (6 : ℝ)) := by
  refine ⟨rfl, rfl, ?_⟩
  intro h
  have := congrArg Prod.fst h
  norm_num at this

/-- C9 (amended): `arch_lm_test` returns exactly the LM-statistic/p-value
pair of `het_arch`; its result is invariant under changes to the
F-statistic/p-value components (which are printed, not returned). -/
theorem arch_lm_test_result (het_arch : List ℝ → ℕ → ℝ × ℝ × ℝ × ℝ)
    (series : List ℝ) (lags : ℕ) :
    arch_lm_test het_arch series lags =
      ((het_arch series lags).1, (het_arch series lags).2.1) ∧
    ∀ g : List ℝ → ℕ → ℝ × ℝ × ℝ × ℝ,
      (g series lags).1 = (het_arch series lags).1 →
      (g series lags).2.1 = (het_arch series lags).2.1 →
      arch_lm_test g series lags = arch_lm_test het_arch series lags := by
  refine ⟨rfl, fun g e1 e2 => ?_⟩
  unfold arch_lm_test
  rw [e1, e2]

/-- Witness for the amended C9. -/
theorem arch_lm_test_result_witness :
    arch_lm_test (fun _ _ => (1, 2, 3, 4)) [0] 12 = ((1 : ℝ), (2 : ℝ)) ∧
    arch_lm_test (fun _ _ => (1, 2, 5, 6)) [0] 12 =
      arch_lm_test (fun _ _ => (1, 2, 3, 4)) [0] 12 := by
  refine ⟨(arch_lm_test_result (fun _ _ => (1, 2, 3, 4)) [0] 12).1, ?_⟩
  exact (arch_lm_test_result (fun _ _ => (1, 2, 3, 4)) [0] 12).2
    (fun _ _ => (1, 2, 5, 6)) rfl rfl

/-- A search step yields no candidate exactly when there was none and the
current fit failed. -/
theorem arimaStep_eq_none {α : Type} [LinearOrder α]
    (fit : ℕ → ℕ → Option α) (b : Option (ArimaCand α)) (pq : ℕ × ℕ) :
    arimaStep fit b pq = none ↔ b = none ∧ fit pq.1 pq.2 = none := by
  cases hfit : fit pq.1 pq.2 with
  | none => cases b <;> simp [arimaStep, hfit]
  | some a =>
    cases b with
    | none => simp [arimaStep, hfit]
    | some b0 =>
      simp only [arimaStep, hfit]
      split_ifs <;> simp

/-- The fold of the search loop yields no candidate exactly when it started
with none and every fit in the remaining grid fails. -/
theorem foldl_arimaStep_eq_none {α : Type} [LinearOrder α]
    (fit : ℕ → ℕ → Option α) (L : List (ℕ × ℕ)) (b : Option (ArimaCand α)) :
    L.foldl (arimaStep fit) b = none ↔
      b = none ∧ ∀ pq ∈ L, fit pq.1 pq.2 = none := by
  induction L generalizing b with
  | nil => simp
  | cons hd tl ih =>
    rw [List.foldl_cons, ih, arimaStep_eq_none]
    constructor
    · rintro ⟨⟨hb, hf⟩, htl⟩
      refine ⟨hb, fun pq hpq => ?_⟩
      rcases List.mem_cons.mp hpq with rfl | hpq
      · exact hf
      · exact htl pq hpq
    · rintro ⟨hb, hall⟩
      exact ⟨⟨hb, hall hd (List.mem_cons_self hd tl)⟩,
        fun pq hpq => hall pq (List.mem_cons_of_mem hd hpq)⟩

/-- Membership in the search grid is exactly the rectangle
`p ≤ max_p`, `q ≤ max_q`. -/
theorem mem_arimaGrid {mp mq : ℕ} {pq : ℕ × ℕ} :
    pq ∈ arimaGrid mp mq ↔ pq.1 ≤ mp ∧ pq.2 ≤ mq := by
  cases pq with
  | mk p q =>
    simp only [arimaGrid, List.mem_flatMap, List.mem_map, List.mem_range,
      Nat.lt_succ_iff, Prod.mk.injEq]
    constructor
    · rintro ⟨a, ha, b, hb, rfl, rfl⟩
      exact ⟨ha, hb⟩
    · rintro ⟨hp, hq⟩
      exact ⟨p, hp, q, hq, rfl, rfl⟩

/-- The search loop is the `pickBetter` fold over the convergent candidates
in iteration order: failed fits are skipped without affecting the state. -/
theorem foldl_arimaStep_filterMap {α : Type} [LinearOrder α]
    (fit : ℕ → ℕ → Option α) (L : List (ℕ × ℕ)) (b : Option (ArimaCand α)) :
    L.foldl (arimaStep fit) b =
      (L.filterMap fun pq => (fit pq.1 pq.2).map
        fun a => (⟨pq.1, pq.2, a⟩ : ArimaCand α)).foldl pickBetter b := by
  induction L generalizing b with
  | nil => rfl
  | cons hd tl ih =>
    rw [List.foldl_cons, List.filterMap_cons]
    cases hfit : fit hd.1 hd.2 with
    | none =>
      rw [show arimaStep fit b hd = b by cases b <;> simp [arimaStep, hfit]]
      exact ih b
    | some a =>
      rw [show arimaStep fit b hd = pickBetter b ⟨hd.1, hd.2, a⟩ by
        cases b <;> simp [arimaStep, pickBetter, hfit]]
      exact ih (pickBetter b ⟨hd.1, hd.2, a⟩)

/-- Characterization of the `pickBetter` fold from an incumbent: the result
either is the incumbent (no strictly better candidate appeared) or is a
candidate in the list that is strictly better than the incumbent and than
everything before it, and no worse than everything in the list. -/
theorem foldl_pickBetter_some {α : Type} [LinearOrder α] (b : ArimaCand α)
    (xs : List (ArimaCand α)) :
    ∃ r, xs.foldl pickBetter (some b) = some r ∧
      ((r = b ∧ ∀ c ∈ xs, b.aic ≤ c.aic) ∨
        (∃ l1 l2, xs = l1 ++ r :: l2 ∧ r.aic < b.aic ∧
          (∀ c ∈ l1, r.aic < c.aic) ∧ ∀ c ∈ xs, r.aic ≤ c.aic)) := by
  induction xs generalizing b with
  | nil => exact ⟨b, rfl, Or.inl ⟨rfl, by simp⟩⟩
  | cons hd tl ih =>
    rw [List.foldl_cons]
    by_cases hlt : hd.aic < b.aic
    · rw [show pickBetter (some b) hd = some hd by simp [pickBetter, hlt]]
      obtain ⟨r, hr, hspec⟩ := ih hd
      refine ⟨r, hr, Or.inr ?_⟩
      rcases hspec with ⟨rfl, hmin⟩ | ⟨l1, l2, heq, hrb, hl1, hmin⟩
      · refine ⟨[], tl, rfl, hlt, by simp, fun c hc => ?_⟩
        rcases List.mem_cons.mp hc with rfl | hc
        · exact le_refl _
        · exact hmin c hc
      · refine ⟨hd :: l1, l2, by simp [heq], lt_trans hrb hlt,
          fun c hc => ?_, fun c hc => ?_⟩
        · rcases List.mem_cons.mp hc with rfl | hc
          · exact hrb
          · exact hl1 c hc
        · rcases List.mem_cons.mp hc with rfl | hc
          · exact le_of_lt hrb
          · exact hmin c hc
    · rw [show pickBetter (some b) hd = some b by simp [pickBetter, hlt]]
      obtain ⟨r, hr, hspec⟩ := ih b
      refine ⟨r, hr, ?_⟩
      rcases hspec with ⟨rfl, hmin⟩ | ⟨l1, l2, heq, hrb, hl1, hmin⟩
      · refine Or.inl ⟨rfl, fun c hc => ?_⟩
        rcases List.mem_cons.mp hc with rfl | hc
        · exact le_of_not_lt hlt
        · exact hmin c hc
      · refine Or.inr ⟨hd :: l1, l2, by simp [heq], hrb,
          fun c hc => ?_, fun c hc => ?_⟩
        · rcases List.mem_cons.mp hc with rfl | hc
          · exact lt_of_lt_of_le hrb (le_of_not_lt hlt)
          · exact hl1 c hc
        · rcases List.mem_cons.mp hc with rfl | hc
          · exact le_trans (le_of_lt hrb) (le_of_not_lt hlt)
          · exact hmin c hc

/-- The `pickBetter` fold from an empty incumbent returns the candidate of
minimal criterion value, and the first such candidate in list order. -/
theorem foldl_pickBetter_none_spec {α : Type} [LinearOrder α]
    (xs : List (ArimaCand α)) (r : ArimaCand α)
    (h : xs.foldl pickBetter none = some r) :
    ∃ l1 l2, xs = l1 ++ r :: l2 ∧ (∀ c ∈ l1, r.aic < c.aic) ∧
      ∀ c ∈ xs, r.aic ≤ c.aic := by
  cases xs with
  | nil => exact absurd h (by simp)
  | cons hd tl =>
    rw [List.foldl_cons, show pickBetter none hd = some hd from rfl] at h
    obtain ⟨r2, hr2, hspec⟩ := foldl_pickBetter_some hd tl
    rw [hr2] at h
    obtain rfl : r2 = r := Option.some.inj h
    rcases hspec with ⟨rfl, hmin⟩ | ⟨l1, l2, heq, hrb, hl1, hmin⟩
    · refine ⟨[], tl, rfl, by simp, fun c hc => ?_⟩
      rcases List.mem_cons.mp hc with rfl | hc
      · exact le_refl _
      · exact hmin c hc
    · refine ⟨hd :: l1, l2, by simp [heq], fun c hc => ?_, fun c hc => ?_⟩
      · rcases List.mem_cons.mp hc with rfl | hc
        · exact hrb
        · exact hl1 c hc
      · rcases List.mem_cons.mp hc with rfl | hc
        · exact le_of_lt hrb
        · exact hmin c hc

/-- C5: when `estimate_arima` returns a model, that model is a convergent
fit from the grid `p ≤ max_p`, `q ≤ max_q`; its criterion value is at most
that of every convergent fit in the grid (failed fits having been skipped,
not fatal); and it is the first candidate attaining the minimum in
low-p-then-low-q iteration order (every earlier convergent candidate is
strictly worse). -/
theorem estimate_arima_selects_min_first {α : Type} [LinearOrder α]
    (fit : ℕ → ℕ → Option α) (mp mq : ℕ) (r : ArimaCand α)
    (h : estimate_arima fit mp mq = some r) :
    fit r.p r.q = some r.aic ∧ r.p ≤ mp ∧ r.q ≤ mq ∧
    (∀ p q a, p ≤ mp → q ≤ mq → fit p q = some a → r.aic ≤ a) ∧
    ∃ l1 l2, arimaSuccesses fit mp mq = l1 ++ r :: l2 ∧
      ∀ c ∈ l1, r.aic < c.aic := by
  unfold estimate_arima at h
  rw [foldl_arimaStep_filterMap] at h
  obtain ⟨l1, l2, heq, hl1, hmin⟩ := foldl_pickBetter_none_spec _ r h
  have hrmem : r ∈ arimaSuccesses fit mp mq := by
    unfold arimaSuccesses
    rw [heq]
    exact List.mem_append_right l1 (List.mem_cons_self r l2)
  have hrfit : fit r.p r.q = some r.aic ∧ (r.p, r.q) ∈ arimaGrid mp mq := by
    rw [arimaSuccesses, List.mem_filterMap] at hrmem
    obtain ⟨pq, hpq, hmap⟩ := hrmem
    cases hfit : fit pq.1 pq.2 with
    | none => rw [hfit] at hmap; exact absurd hmap (by simp)
    | some a =>
      rw [hfit] at hmap
      obtain rfl := Option.some.inj hmap
      exact ⟨hfit, by simpa using hpq⟩
  refine ⟨hrfit.1, (mem_arimaGrid.mp hrfit.2).1, (mem_arimaGrid.mp hrfit.2).2,
    fun p q a hp hq hfita => ?_, l1, l2, heq, hl1⟩
  have hcmem : (⟨p, q, a⟩ : ArimaCand α) ∈ arimaSuccesses fit mp mq := by
    rw [arimaSuccesses, List.mem_filterMap]
    exact ⟨(p, q), mem_arimaGrid.mpr ⟨hp, hq⟩, by rw [hfita]; rfl⟩
  exact hmin ⟨p, q, a⟩ (by rw [arimaSuccesses] at hcmem; exact hcmem)

/-- Witness for C5: with `arimaFitExample` on the grid `p, q ≤ 1`, the
selector returns order `(0,1)` with criterion value `3`. -/
theorem estimate_arima_selects_min_first_witness :
    estimate_arima arimaFitExample 1 1 = some ⟨0, 1, 3⟩ ∧
    (arimaFitExample 0 1 = some 3 ∧ (0 : ℕ) ≤ 1 ∧ (1 : ℕ) ≤ 1 ∧
      (∀ p q a, p ≤ 1 → q ≤ 1 → arimaFitExample p q = some a → 3 ≤ a) ∧
      ∃ l1 l2, arimaSuccesses arimaFitExample 1 1 =
        l1 ++ (⟨0, 1, 3⟩ : ArimaCand ℕ) :: l2 ∧ ∀ c ∈ l1, 3 < c.aic) :=
  ⟨rfl, estimate_arima_selects_min_first arimaFitExample 1 1 ⟨0, 1, 3⟩ rfl⟩

/-- Counterexample to C6 as stated: when every fit in the grid fails the
source sets no candidate and executes `return best_model`, returning `None`
normally — it does not raise `NoConvergentModelError` (no such exception
class exists in the repository). -/
theorem estimate_arima_allfail_cex :
    estimate_arima (fun _ _ => (none : Option ℚ)) 5 5 = none := rfl

/-- C6 (amended): `estimate_arima` returns no model (Python `None`) exactly
when every `(p, q)` combination in the grid fails to fit; no exception is
involved. -/
theorem estimate_arima_none_iff {α : Type} [LinearOrder α]
    (fit : ℕ → ℕ → Option α) (mp mq : ℕ) :
    estimate_arima fit mp mq = none ↔
      ∀ p q, p ≤ mp → q ≤ mq → fit p q = none := by
  unfold estimate_arima
  rw [foldl_arimaStep_eq_none]
  constructor
  · intro h p q hp hq
    exact h.2 (p, q) (mem_arimaGrid.mpr ⟨hp, hq⟩)
  · intro h
    exact ⟨rfl, fun pq hpq =>
      h pq.1 pq.2 (mem_arimaGrid.mp hpq).1 (mem_arimaGrid.mp hpq).2⟩

/-- NaN absorbs addition on the left. -/
theorem FVal.nan_add (v : FVal) : FVal.add .nan v = .nan := by cases v <;> rfl

/-- NaN absorbs addition on the right. -/
theorem FVal.add_nan (v : FVal) : v.add .nan = .nan := by cases v <;> rfl

/-- NaN absorbs subtraction on the right. -/
theorem FVal.sub_nan (v : FVal) : v.sub .nan = .nan := by cases v <;> rfl

/-- `np.log` of a positive float is finite. -/
theorem flog_of_pos {x : ℝ} (h : 0 < x) : flog x = .fin (Real.log x) := by
  unfold flog
  rw [if_pos h]

/-- `np.log(0.0) = -inf`. -/
theorem flog_zero : flog 0 = FVal.ninf := by
  unfold flog
  rw [if_neg (lt_irrefl 0), if_pos rfl]

/-- When one of the four transition counts is zero (but the marginal sums
guarding the likelihood branch are not), the corresponding conditional
probability is `0` or `1`, its `np.log` is `-inf`, the zero count
multiplies it to NaN, and NaN absorbs the whole of `logL1`. -/
theorem christLogL1F_nan (xs : List Bool)
    (h1 : n01of xs + n00of xs ≠ 0) (h2 : n10of xs + n11of xs ≠ 0)
    (hz : n00of xs = 0 ∨ n01of xs = 0 ∨ n10of xs = 0 ∨ n11of xs = 0) :
    christLogL1F xs = FVal.nan := by
  unfold christLogL1F
  rcases hz with h | h | h | h
  · have hpi : christPi01 xs = 1 := by
      unfold christPi01
      rw [h, Nat.cast_zero, zero_add]
      exact div_self (Nat.cast_ne_zero.mpr (by omega))
    rw [hpi, sub_self, flog_zero, h]
    rw [show FVal.nmul 0 FVal.ninf = FVal.nan from rfl]
    rw [FVal.nan_add, FVal.nan_add, FVal.nan_add]
  · have hpi : christPi01 xs = 0 := by
      unfold christPi01
      rw [h, Nat.cast_zero, zero_div]
    rw [hpi, flog_zero, h]
    rw [show FVal.nmul 0 FVal.ninf = FVal.nan from rfl]
    rw [FVal.add_nan, FVal.nan_add, FVal.nan_add]
  · have hpi : christPi11 xs = 1 := by
      unfold christPi11
      rw [h, Nat.cast_zero, zero_add]
      exact div_self (Nat.cast_ne_zero.mpr (by omega))
    rw [hpi, sub_self, flog_zero, h]
    rw [show FVal.nmul 0 FVal.ninf = FVal.nan from rfl]
    rw [FVal.add_nan, FVal.nan_add]
  · have hpi : christPi11 xs = 0 := by
      unfold christPi11
      rw [h, Nat.cast_zero, zero_div]
    rw [hpi, flog_zero, h]
    rw [show FVal.nmul 0 FVal.ninf = FVal.nan from rfl]
    rw [FVal.add_nan]

/-- When all four transition counts are positive, every log argument is
strictly positive, all IEEE operations stay finite, and the statistic is
the real number `christLRval`. -/
theorem christLRF_fin (xs : List Bool) (h00 : 0 < n00of xs)
    (h01 : 0 < n01of xs) (h10 : 0 < n10of xs) (h11 : 0 < n11of xs) :
    christLRF xs = FVal.fin (christLRval xs) := by
  have c00 : (0 : ℝ) < (n00of xs : ℝ) := by exact_mod_cast h00
  have c01 : (0 : ℝ) < (n01of xs : ℝ) := by exact_mod_cast h01
  have c10 : (0 : ℝ) < (n10of xs : ℝ) := by exact_mod_cast h10
  have c11 : (0 : ℝ) < (n11of xs : ℝ) := by exact_mod_cast h11
  have hpi01a : 0 < christPi01 xs := by
    unfold christPi01
    exact div_pos c01 (by linarith)
  have hpi01b : christPi01 xs < 1 := by
    unfold christPi01
    rw [div_lt_one (by linarith)]
    linarith
  have hpi11a : 0 < christPi11 xs := by
    unfold christPi11
    exact div_pos c11 (by linarith)
  have hpi11b : christPi11 xs < 1 := by
    unfold christPi11
    rw [div_lt_one (by linarith)]
    linarith
  have hpiUa : 0 < christPi xs := by
    unfold christPi
    exact div_pos (by linarith) (by linarith)
  have hpiUb : christPi xs < 1 := by
    unfold christPi
    rw [div_lt_one (by linarith)]
    linarith
  unfold christLRF christLogL0F christLogL1F christLRval
  rw [flog_of_pos (by linarith : (0 : ℝ) < 1 - christPi xs),
    flog_of_pos hpiUa,
    flog_of_pos (by linarith : (0 : ℝ) < 1 - christPi01 xs),
    flog_of_pos hpi01a,
    flog_of_pos (by linarith : (0 : ℝ) < 1 - christPi11 xs),
    flog_of_pos hpi11a]
  simp only [FVal.nmul, FVal.add, FVal.sub, FVal.neg2mul]
  congr 1
  push_cast
  ring

/-- C2 (amended): for a binary exceedance sequence of length at least 2 the
transition counts are always returned; `lr_ind` (and with it `p_value`) is
NaN if and only if one of the four transition counts `n00, n01, n10, n11`
is zero — a strictly weaker guard than the source's marginal-sum check,
because a zero count inside the likelihood branch produces
`0 * np.log(0.0) = NaN`; and when all four counts are positive the
statistic is the finite real `-2 * (logL0 - logL1)` with the spec's
transition probabilities, with `p_value = 1 - chi2.cdf(lr_ind, 1)`. -/
theorem christoffersen_nan_characterization (chi2cdf : ℝ → ℝ → ℝ)
    (xs : List Bool) (h2 : 2 ≤ xs.length) :
    (christoffersen_test chi2cdf xs).n00 = some (n00of xs) ∧
    (christoffersen_test chi2cdf xs).n01 = some (n01of xs) ∧
    (christoffersen_test chi2cdf xs).n10 = some (n10of xs) ∧
    (christoffersen_test chi2cdf xs).n11 = some (n11of xs) ∧
    ((christoffersen_test chi2cdf xs).lr_ind = FVal.nan ↔
      (n00of xs = 0 ∨ n01of xs = 0 ∨ n10of xs = 0 ∨ n11of xs = 0)) ∧
    ((christoffersen_test chi2cdf xs).p_value = FVal.nan ↔
      (christoffersen_test chi2cdf xs).lr_ind = FVal.nan) ∧
    (0 < n00of xs → 0 < n01of xs → 0 < n10of xs → 0 < n11of xs →
      (christoffersen_test chi2cdf xs).lr_ind = FVal.fin (christLRval xs) ∧
      (christoffersen_test chi2cdf xs).p_value =
        FVal.fin (1 - chi2cdf (christLRval xs) 1)) := by
  have hlen : ¬(xs.length < 2) := not_lt.mpr h2
  by_cases hdeg : n01of xs + n00of xs = 0 ∨ n10of xs + n11of xs = 0 ∨
      n01of xs + n11of xs = 0
  · have hz : n00of xs = 0 ∨ n01of xs = 0 ∨ n10of xs = 0 ∨ n11of xs = 0 := by
      omega
    have hres : christoffersen_test chi2cdf xs =
        ⟨some (n00of xs), some (n01of xs), some (n10of xs), some (n11of xs),
          FVal.nan, FVal.nan⟩ := by
      unfold christoffersen_test
      rw [if_neg hlen]
      simp only [if_pos hdeg]
    rw [hres]
    refine ⟨rfl, rfl, rfl, rfl, iff_of_true rfl hz, iff_of_true rfl rfl, ?_⟩
    intro h00 h01 h10 h11
    exact absurd hdeg (by omega)
  · have hm : n01of xs + n00of xs ≠ 0 ∧ n10of xs + n11of xs ≠ 0 ∧
        n01of xs + n11of xs ≠ 0 := by
      push_neg at hdeg
      exact hdeg
    have hres : christoffersen_test chi2cdf xs =
        ⟨some (n00of xs), some (n01of xs), some (n10of xs), some (n11of xs),
          christLRF xs,
          (FVal.fin 1).sub (chi2cdfF chi2cdf 1 (christLRF xs))⟩ := by
      unfold christoffersen_test
      rw [if_neg hlen]
      simp only [if_neg hdeg]
    rw [hres]
    refine ⟨rfl, rfl, rfl, rfl, ?_, ?_, ?_⟩
    · by_cases hz : n00of xs = 0 ∨ n01of xs = 0 ∨ n10of xs = 0 ∨
          n11of xs = 0
      · refine iff_of_true ?_ hz
        show christLRF xs = FVal.nan
        unfold christLRF
        rw [christLogL1F_nan xs hm.1 hm.2.1 hz, FVal.sub_nan]
        rfl
      · refine iff_of_false ?_ hz
        push_neg at hz
        show christLRF xs ≠ FVal.nan
        rw [christLRF_fin xs (Nat.pos_of_ne_zero hz.1)
          (Nat.pos_of_ne_zero hz.2.1) (Nat.pos_of_ne_zero hz.2.2.1)
          (Nat.pos_of_ne_zero hz.2.2.2)]
        simp
    · show (FVal.fin 1).sub (chi2cdfF chi2cdf 1 (christLRF xs)) = FVal.nan ↔
        christLRF xs = FVal.nan
      cases hv : christLRF xs <;> simp [chi2cdfF, FVal.sub]
    · intro h00 h01 h10 h11
      have hfin := christLRF_fin xs h00 h01 h10 h11
      constructor
      · show christLRF xs = FVal.fin (christLRval xs)
        exact hfin
      · show (FVal.fin 1).sub (chi2cdfF chi2cdf 1 (christLRF xs)) =
          FVal.fin (1 - chi2cdf (christLRval xs) 1)
        rw [hfin]
        rfl

/-- Counterexample to C2 as stated: for `[1, 1, 0, 0]` the transition
counts are `n00 = 1, n01 = 0, n10 = 1, n11 = 1`, so all three marginal sums
`(n00+n01)`, `(n10+n11)`, `(n01+n11)` are nonzero and the likelihood branch
runs; yet `pi_01 = 0`, so `logL1` contains `n01 * np.log(0.0) =
0 * (-inf) = NaN` and both `lr_ind` and `p_value` come out NaN, refuting
the claimed "NaN if and only if a marginal sum is zero". -/
theorem christoffersen_nondegenerate_nan_cex :
    n01of [true, true, false, false] + n00of [true, true, false, false] ≠ 0 ∧
    n10of [true, true, false, false] + n11of [true, true, false, false] ≠ 0 ∧
    n01of [true, true, false, false] + n11of [true, true, false, false] ≠ 0 ∧
    (christoffersen_test (fun _ _ => 0) [true, true, false, false]).lr_ind =
      FVal.nan ∧
    (christoffersen_test (fun _ _ => 0) [true, true, false, false]).p_value =
      FVal.nan := by
  have hm1 : n01of [true, true, false, false] +
      n00of [true, true, false, false] ≠ 0 := by decide
  have hm2 : n10of [true, true, false, false] +
      n11of [true, true, false, false] ≠ 0 := by decide
  have hm3 : n01of [true, true, false, false] +
      n11of [true, true, false, false] ≠ 0 := by decide
  have hdeg : ¬(n01of [true, true, false, false] +
        n00of [true, true, false, false] = 0 ∨
      n10of [true, true, false, false] +
        n11of [true, true, false, false] = 0 ∨
      n01of [true, true, false, false] +
        n11of [true, true, false, false] = 0) := by decide
  have hlen : ¬(([true, true, false, false] : List Bool).length < 2) := by
    decide
  have hlrf : christLRF [true, true, false, false] = FVal.nan := by
    unfold christLRF
    rw [christLogL1F_nan [true, true, false, false] hm1 hm2
      (Or.inr (Or.inl (by decide))), FVal.sub_nan]
    rfl
  have hres : christoffersen_test (fun _ _ => 0) [true, true, false, false] =
      ⟨some (n00of [true, true, false, false]),
        some (n01of [true, true, false, false]),
        some (n10of [true, true, false, false]),
        some (n11of [true, true, false, false]),
        christLRF [true, true, false, false],
        (FVal.fin 1).sub (chi2cdfF (fun _ _ => 0) 1
          (christLRF [true, true, false, false]))⟩ := by
    unfold christoffersen_test
    rw [if_neg hlen]
    simp only [if_neg hdeg]
  refine ⟨hm1, hm2, hm3, ?_, ?_⟩
  · rw [hres]
    exact hlrf
  · rw [hres]
    show (FVal.fin 1).sub (chi2cdfF (fun _ _ => 0) 1
      (christLRF [true, true, false, false])) = FVal.nan
    rw [hlrf]
    rfl

/-- Witness for the amended C2 on `[0, 0, 1, 1, 0]`, whose four transition
counts are all `1`. -/
theorem christoffersen_nan_characterization_witness :
    2 ≤ ([false, false, true, true, false] : List Bool).length ∧
    ((christoffersen_test (fun _ _ => 0)
        [false, false, true, true, false]).n00 =
      some (n00of [false, false, true, true, false]) ∧
    (christoffersen_test (fun _ _ => 0)
        [false, false, true, true, false]).n01 =
      some (n01of [false, false, true, true, false]) ∧
    (christoffersen_test (fun _ _ => 0)
        [false, false, true, true, false]).n10 =
      some (n10of [false, false, true, true, false]) ∧
    (christoffersen_test (fun _ _ => 0)
        [false, false, true, true, false]).n11 =
      some (n11of [false, false, true, true, false]) ∧
    ((christoffersen_test (fun _ _ => 0)
        [false, false, true, true, false]).lr_ind = FVal.nan ↔
      (n00of [false, false, true, true, false] = 0 ∨
        n01of [false, false, true, true, false] = 0 ∨
        n10of [false, false, true, true, false] = 0 ∨
        n11of [false, false, true, true, false] = 0)) ∧
    ((christoffersen_test (fun _ _ => 0)
        [false, false, true, true, false]).p_value = FVal.nan ↔
      (christoffersen_test (fun _ _ => 0)
        [false, false, true, true, false]).lr_ind = FVal.nan) ∧
    (0 < n00of [false, false, true, true, false] →
      0 < n01of [false, false, true, true, false] →
      0 < n10of [false, false, true, true, false] →
      0 < n11of [false, false, true, true, false] →
      (christoffersen_test (fun _ _ => 0)
          [false, false, true, true, false]).lr_ind =
        FVal.fin (christLRval [false, false, true, true, false]) ∧
      (christoffersen_test (fun _ _ => 0)
          [false, false, true, true, false]).p_value =
        FVal.fin (1 - (fun _ _ => (0 : ℝ))
          (christLRval [false, false, true, true, false]) 1))) :=
  ⟨by decide, christoffersen_nan_characterization (fun _ _ => 0)
    [false, false, true, true, false] (by decide)⟩

/-- Witness for the amended C6: a grid in which every fit fails yields no
model. -/
theorem estimate_arima_none_iff_witness :
    estimate_arima (fun _ _ => (none : Option ℚ)) 2 3 = none :=
  (estimate_arima_none_iff (fun _ _ => (none : Option ℚ)) 2 3).mpr
    (fun _ _ _ _ => rfl)

end Spec2Proof
